import Mathlib

/-!
Verification of the strongbox clean/smudge/merge filter pipeline.

The Go sources are shallowly embedded here.  Bytes are modelled as `List Nat`
(Go `[]byte`; all values produced by the modelled code are below 256 and no
arithmetic overflows).  External collaborators that the repository only calls
(the AES-SIV library `github.com/jacobsa/crypto/siv`, the Go standard-library
`compress/gzip` and `encoding/base64` codecs, the `filippo.io/age` library and
the host git binary) are modelled as parameters, gathered in the structures
`Prims`, `Env` and `AgeEnv`; every function of the repository itself is
translated from its source.
-/

namespace Strongbox

/-- A byte string (Go `[]byte`). -/
abbrev Bytes := List Nat

/-- Go `prefix`: the bytes of the literal `"# STRONGBOX ENCRYPTED RESOURCE ;"`. -/
def sivMarker : Bytes :=
  [35, 32, 83, 84, 82, 79, 78, 71, 66, 79, 88, 32, 69, 78, 67, 82, 89, 80,
   84, 69, 68, 32, 82, 69, 83, 79, 85, 82, 67, 69, 32, 59]

/-- Go `defaultPrefix`: the marker line written by `encrypt`, the bytes of
`"# STRONGBOX ENCRYPTED RESOURCE ; See https://github.com/uw-labs/strongbox\n"`. -/
def sivDefaultHeader : Bytes :=
  [35, 32, 83, 84, 82, 79, 78, 71, 66, 79, 88, 32, 69, 78, 67, 82, 89, 80,
   84, 69, 68, 32, 82, 69, 83, 79, 85, 82, 67, 69, 32, 59, 32, 83, 101, 101,
   32, 104, 116, 116, 112, 115, 58, 47, 47, 103, 105, 116, 104, 117, 98, 46,
   99, 111, 109, 47, 117, 119, 45, 108, 97, 98, 115, 47, 115, 116, 114, 111,
   110, 103, 98, 111, 120, 10]

/-- The bytes of `armor.Header`, `"-----BEGIN AGE ENCRYPTED FILE-----"`. -/
def armorHeader : Bytes :=
  [45, 45, 45, 45, 45, 66, 69, 71, 73, 78, 32, 65, 71, 69, 32, 69, 78, 67,
   82, 89, 80, 84, 69, 68, 32, 70, 73, 76, 69, 45, 45, 45, 45, 45]

/-- External deterministic primitives used by the SIV codec of `siv.go`.
`sivEncrypt key msg` stands for `siv.Encrypt(nil, key, msg, nil)` (total: the
library only errors on malformed key sizes, never reached by the modelled
claims), `sivDecrypt key ct` for `siv.Decrypt(key, ct, nil)` (`none` models an
authentication error), `gzip`/`gunzip` for the gzip codec behind
`compress`/`decompress` at the default compression level (both deterministic;
`gunzip x = none` models an invalid gzip stream, on which `decompress` calls
`log.Fatal` and never returns), and `b64encode`/`b64decode` for
`base64.StdEncoding` (the decoder skips newline bytes, which is hypothesised
where a proof needs it). -/
structure Prims where
  sivEncrypt : Bytes → Bytes → Bytes
  sivDecrypt : Bytes → Bytes → Option Bytes
  gzip : Bytes → Bytes
  gunzip : Bytes → Option Bytes
  b64encode : Bytes → Bytes
  b64decode : Bytes → Option Bytes

/-- The 76-column line wrapping loop of `encrypt` (siv.go): while the base-64
text is non-empty, emit up to 76 of its bytes followed by a newline. -/
def wrap76 (b : Bytes) : Bytes :=
  if h : b = [] then []
  else b.take 76 ++ 10 :: wrap76 (b.drop 76)
termination_by b.length
decreasing_by
  simp only [List.length_drop]
  have hlen : 0 < b.length := List.length_pos.mpr h
  omega

/-- Go `encrypt` (siv.go): gzip-compress, SIV-encrypt, emit the default marker
line followed by the 76-column-wrapped standard base-64 body. -/
def encrypt (p : Prims) (b key : Bytes) : Bytes :=
  sivDefaultHeader ++ wrap76 (p.b64encode (p.sivEncrypt key (p.gzip b)))

/-- Go `bytes.SplitN(enc, "\n", 2)`: `some (before, after)` around the first
newline, `none` when the input holds no newline (in which case `SplitN`
returns a single fragment and `decrypt` fails). -/
def splitFirstNL : Bytes → Option (Bytes × Bytes)
  | [] => none
  | c :: rest =>
    if c = 10 then some ([], rest)
    else
      match splitFirstNL rest with
      | none => none
      | some (a, b) => some (c :: a, b)

/-- The outcome of Go `decrypt` (siv.go): `err` is one of its error returns
(no newline to split on, base-64 decode failure, SIV authentication failure),
`fatal` is the `log.Fatal` exit inside `decompress` on an invalid gzip stream
(the call never returns and the process dies), `ok` is the plaintext. -/
inductive DecRes where
  | err
  | fatal
  | ok (b : Bytes)
deriving DecidableEq

/-- Did `decrypt` end in an error return? -/
def DecRes.isErr : DecRes → Bool
  | .err => true
  | _ => false

/-- Did `decrypt` return plaintext? -/
def DecRes.isOk : DecRes → Bool
  | .ok _ => true
  | _ => false

/-- Go `decrypt` (siv.go): strip the marker line, base-64-decode the rest,
SIV-decrypt, then gzip-decompress the authenticated bytes; the final step
terminates the process on an invalid stream (`.fatal`). -/
def decrypt (p : Prims) (enc priv : Bytes) : DecRes :=
  match splitFirstNL enc with
  | none => .err
  | some (_, body) =>
    match p.b64decode body with
    | none => .err
    | some ct =>
      match p.sivDecrypt priv ct with
      | none => .err
      | some m =>
        match p.gunzip m with
        | none => .fatal
        | some b => .ok b

/-- A working-tree path, as the list of its components relative to the
repository root; `[]` is the directory `"."`.  `filepath.Dir` on a clean
relative path drops the last component, `filepath.Join` appends one. -/
abbrev Path := List String

/-- Age recipients (`[]age.Recipient`), abstract tokens. -/
abbrev Recips := List Nat

/-- Age identities (`[]age.Identity`), abstract tokens. -/
abbrev Ids := List Nat

/-- The error values the modelled code distinguishes. -/
inductive Err where
  | ioErr (n : Nat)
  | decodeErr
  | badKeyLength (n : Nat)
  | keyNotFound
  | libErr (n : Nat)
  | bindingNotFound
  | decompressFatal
deriving DecidableEq

/-- The filesystem and keyring environment of one invocation.  `isDir p`
models `os.Stat(p)` succeeding on a directory, `isFile p` a `Stat` succeeding
on a non-directory, `readFile` is `os.ReadFile`, `parseRecips p` is
`ageFileToRecipient(p)` (opening the file and `age.ParseRecipients`),
`krLoad`/`krKey` are the keyring operations `kr.Load()` and `kr.Key(id)`. -/
structure Env where
  isDir : Path → Bool
  isFile : Path → Bool
  readFile : Path → Except Err Bytes
  parseRecips : Path → Except Err Recips
  krLoad : Except Err Unit
  krKey : Bytes → Except Err Bytes

/-- Component name of a recipient binding file, `.strongbox_recipient`. -/
def recipName : String := ".strongbox_recipient"

/-- Component name of a key-id binding file, `.strongbox-keyid`. -/
def kidName : String := ".strongbox-keyid"

/-- Is `c` one of the ASCII white-space bytes trimmed by
`strings.TrimSpace`? -/
def isSpaceByte (c : Nat) : Bool := c == 32 || (9 ≤ c && c ≤ 13)

/-- Go `strings.TrimSpace`: drop white space from both ends (the sources only
ever hold ASCII, so the Unicode cases of `TrimSpace` do not arise). -/
def trimSpace (b : Bytes) : Bytes :=
  ((b.dropWhile isSpaceByte).reverse.dropWhile isSpaceByte).reverse

/-- Go `readKeyID` (siv.go): read the file, trim white space, base-64-decode,
and require exactly 32 decoded bytes; `badKeyLength` models the
`"unexpected key length %d"` error. -/
def readKeyID (p : Prims) (env : Env) (filename : Path) : Except Err Bytes :=
  match env.readFile filename with
  | .error e => .error e
  | .ok fp =>
    match p.b64decode (trimSpace fp) with
    | none => .error .decodeErr
    | some b => if b.length ≠ 32 then .error (.badKeyLength b.length) else .ok b

/-- Go `sivFileToKey` (siv.go): read the key id from the file and look the key
up in the keyring. -/
def sivFileToKey (p : Prims) (env : Env) (filename : Path) : Except Err Bytes :=
  match readKeyID p env filename with
  | .error e => .error e
  | .ok keyID =>
    match env.krLoad with
    | .error e => .error e
    | .ok _ => env.krKey keyID

/-- The result triple of Go `findRecipients`: the recipients, the SIV key and
the error (each `nil` or present, as in the source). -/
abbrev FindRes := Option Recips × Option Bytes × Option Err

/-- The body of one iteration of the `findRecipients` loop: when `path` is a
directory, return the result dictated by the binding file found there
(`.strongbox_recipient` first, then `.strongbox-keyid`), or `none` when the
directory holds neither and the walk must continue.  On a recipient-parse
error the source returns `(recipients, nil, err)` with `recipients = nil`; on
a key lookup error it returns `(nil, key, err)` where `sivFileToKey` produced
the non-nil empty slice `[]byte\x7b\x7d`, modelled as `some []`. -/
def checkBindingDir (p : Prims) (env : Env) (path : Path) : Option FindRes :=
  if env.isDir path then
    if env.isFile (path ++ [recipName]) then
      some (match env.parseRecips (path ++ [recipName]) with
        | .ok r => (some r, none, none)
        | .error e => (none, none, some e))
    else if env.isFile (path ++ [kidName]) then
      some (match sivFileToKey p env (path ++ [kidName]) with
        | .ok k => (none, some k, none)
        | .error e => (none, some [], some e))
    else none
  else none

/-- The loop of Go `findRecipients` (strongbox.go), from a directory `path`:
check the directory, stop at `"."` (the empty path) with the
`"failed to find recipient or keyid"` error, otherwise continue at the
parent. -/
def findRecipientsFrom (p : Prims) (env : Env) : Path → FindRes
  | [] =>
    (checkBindingDir p env []).getD (none, none, some .bindingNotFound)
  | s :: rest =>
    (checkBindingDir p env (s :: rest)).getD
      (findRecipientsFrom p env (s :: rest).dropLast)
termination_by path => path.length
decreasing_by
  simp only [List.dropLast_cons_of_ne_nil, List.length_cons, List.length_dropLast]
  omega

/-- Go `findRecipients` (strongbox.go): walk up from `filepath.Dir(filename)`
looking for the closest age recipient file or SIV key-id file. -/
def findRecipients (p : Prims) (env : Env) (filename : Path) : FindRes :=
  findRecipientsFrom p env filename.dropLast

/-- The chain of directories visited by an upward walk that starts at `d` and
ends at the tree root `[]`. -/
def parentChain : Path → List Path
  | [] => [[]]
  | s :: rest => (s :: rest) :: parentChain (s :: rest).dropLast
termination_by path => path.length
decreasing_by
  simp only [List.dropLast_cons_of_ne_nil, List.length_cons, List.length_dropLast]
  omega

/-- Modelled from the claim text (the resolution walk of spec §4.4): walk from
`dirname(P)` toward the tree root and act on the first directory that holds a
binding file, a recipient file taking precedence over a key-id file in the
same directory; reaching the root with no match is a binding-not-found
error.  The outcome at the matched directory reuses the leaf operations of
the source (`parseRecips`, `sivFileToKey`). -/
def specResolve (p : Prims) (env : Env) (filename : Path) : FindRes :=
  match (parentChain filename.dropLast).find? (fun d =>
      env.isDir d && (env.isFile (d ++ [recipName]) || env.isFile (d ++ [kidName]))) with
  | none => (none, none, some .bindingNotFound)
  | some d =>
    if env.isFile (d ++ [recipName]) then
      match env.parseRecips (d ++ [recipName]) with
      | .ok r => (some r, none, none)
      | .error e => (none, none, some e)
    else
      match sivFileToKey p env (d ++ [kidName]) with
      | .ok k => (none, some k, none)
      | .error e => (none, some [], some e)

/-- The age-scheme environment: `identityFileData` is the contents of the
identity file (`none` when opening it fails), `parseIdentities` is
`age.ParseIdentities`, `ageOpen ids ct` is the armor reader plus
`age.Decrypt` over the parsed identities, `existsAtHEAD`/`fileAtHEAD` are the
`git cat-file -e` / `-p` probes of the committed blob, `recipientChanged` is
`ageRecipientChanged`, and `armorBody r b` is everything an
`armor.NewWriter`-wrapped `age.Encrypt` emits after the armor header. -/
structure AgeEnv where
  identityFileData : Option Bytes
  parseIdentities : Bytes → Except Err Ids
  ageOpen : Ids → Bytes → Except Err Bytes
  existsAtHEAD : Path → Bool
  fileAtHEAD : Path → Bytes
  recipientChanged : Path → Bool
  armorBody : Recips → Bytes → Bytes

/-- Go `ageDecrypt` (age.go): when the identity file is missing, does not
parse, or no identity matches, stream the input through unchanged; otherwise
the decrypted plaintext. -/
def ageDecrypt (aenv : AgeEnv) (inB : Bytes) : Bytes :=
  match aenv.identityFileData with
  | none => inB
  | some d =>
    match aenv.parseIdentities d with
    | .error _ => inB
    | .ok ids =>
      match aenv.ageOpen ids inB with
      | .error _ => inB
      | .ok pt => pt

/-- Go `agePlaintextEqual` (age.go): the file exists at HEAD, its committed
blob carries the armor header, and that blob decrypts to the new plaintext. -/
def agePlaintextEqual (aenv : AgeEnv) (inB : Bytes) (f : Path) : Bool :=
  aenv.existsAtHEAD f &&
    armorHeader.isPrefixOf (aenv.fileAtHEAD f) &&
    (ageDecrypt aenv (aenv.fileAtHEAD f) == inB)

/-- Go `ageEncrypt` (age.go): reuse the committed ciphertext when the
plaintext and the governing recipient file are unchanged, else write a fresh
armored age ciphertext. -/
def ageEncrypt (aenv : AgeEnv) (r : Recips) (inB : Bytes) (f : Path) : Bytes :=
  if agePlaintextEqual aenv inB f && !aenv.recipientChanged f then
    aenv.fileAtHEAD f
  else
    armorHeader ++ aenv.armorBody r inB

/-- Go `clean` (strongbox.go): pass an already-encrypted input through
unchanged; otherwise resolve the binding (a fatal error, `.error`, when that
fails) and encrypt under the age recipients or the SIV key it yields.  The
source runs the two `!= nil` branches in sequence, so the translation
concatenates their outputs (at most one is non-empty in any reachable
state). -/
def clean (p : Prims) (env : Env) (aenv : AgeEnv) (inB : Bytes) (f : Path) :
    Except Err Bytes :=
  if sivMarker.isPrefixOf inB || armorHeader.isPrefixOf inB then .ok inB
  else
    match findRecipients p env f with
    | (_, _, some e) => .error e
    | (r?, k?, none) =>
      .ok ((match r? with
            | some r => ageEncrypt aenv r inB f
            | none => []) ++
           (match k? with
            | some k => encrypt p inB k
            | none => []))

/-- Go `smudge` (strongbox.go): age-decrypt armored input; SIV-decrypt
marker-prefixed input, passing it through unchanged (with at most a log line)
when the key cannot be loaded or `decrypt` returns an error; pass everything
else through.  `.error .decompressFatal` marks the `log.Fatal` exit reached
inside `decompress` when the authenticated bytes are not a valid gzip stream:
the process dies and nothing is written.  (The remaining `log.Fatal`s of the
source guard only stream I/O failures, which the pure model does not
produce.) -/
def smudge (p : Prims) (aenv : AgeEnv) (keyLoader : Path → Except Err Bytes)
    (inB : Bytes) (f : Path) : Except Err Bytes :=
  if armorHeader.isPrefixOf inB then .ok (ageDecrypt aenv inB)
  else if sivMarker.isPrefixOf inB then
    match keyLoader f with
    | .error _ => .ok inB
    | .ok key =>
      match decrypt p inB key with
      | .err => .ok inB
      | .fatal => .error .decompressFatal
      | .ok out => .ok out
  else .ok inB

/-- One regular file met by the `WalkDir` of `recursiveDecrypt`, with the
outcome of each fallible I/O operation on it: `openErr` for
`os.OpenFile`, `readChunkErr` for a non-EOF error of the first `Read`,
`readAllErr` for `io.ReadAll`, then `truncateErr`, `seekErr` and `writeErr`
for the rewrite.  Directory entries only steer the walk (the `.git` skip) and
carry no claim, so the walk is modelled over its file entries in visit
order. -/
structure FileEntry where
  path : Path
  content : Bytes
  openErr : Option Nat
  readChunkErr : Option Nat
  readAllErr : Option Nat
  truncateErr : Option Nat
  seekErr : Option Nat
  writeErr : Option Nat

/-- The outcome of the `WalkDir` callback body on one file: abort the walk
with an I/O error (carrying the bytes the file was left with), skip a file
without the marker, record a per-file failure and continue, die in the fatal
`decompress` exit (the file still holds its original bytes: truncation has
not happened yet), or rewrite the file with the decrypted bytes. -/
inductive StepRes where
  | abort (e : Nat) (left : Bytes)
  | skip
  | recordFail
  | fatalExit
  | wrote (out : Bytes)
deriving DecidableEq

/-- The callback body of `recursiveDecrypt` (siv.go) on one file: open it,
peek the first `len(defaultPrefix)` bytes, skip unless they carry the marker;
take the explicit key when one was given, else load one for the path
(recording a failure on error); read the whole file and decrypt (recording a
failure on an error return, dying with the process on the fatal `decompress`
exit); then truncate, rewind and rewrite.  A failed write after a successful
truncate leaves the file truncated (`left = []`). -/
def processFile (p : Prims) (keyLoader : Path → Except Err Bytes)
    (givenKey : Bytes) (f : FileEntry) : StepRes :=
  match f.openErr with
  | some e => .abort e f.content
  | none =>
  match f.readChunkErr with
  | some e => .abort e f.content
  | none =>
  if !sivMarker.isPrefixOf (f.content.take sivDefaultHeader.length) then .skip
  else
    match (if givenKey.length = 0 then keyLoader f.path else .ok givenKey) with
    | .error _ => .recordFail
    | .ok key =>
      match f.readAllErr with
      | some e => .abort e f.content
      | none =>
      match decrypt p f.content key with
      | .err => .recordFail
      | .fatal => .fatalExit
      | .ok out =>
        match f.truncateErr with
        | some e => .abort e f.content
        | none =>
        match f.seekErr with
        | some e => .abort e []
        | none =>
        match f.writeErr with
        | some e => .abort e []
        | none => .wrote out

/-- How a walk stops early: `ioAbort e` is a callback error, returned by
`WalkDir` to `recursiveDecrypt`; `procExit` is the `log.Fatal` inside
`decompress`, which kills the whole process. -/
inductive WalkEnd where
  | ioAbort (e : Nat)
  | procExit
deriving DecidableEq

/-- The walk of `recursiveDecrypt` over its file entries: the final contents
of every file, the recorded per-file failures (`decErrors`, kept as the
failing paths) and the early end, if any.  An abort or a fatal exit leaves
every later file untouched. -/
def runWalk (p : Prims) (keyLoader : Path → Except Err Bytes)
    (givenKey : Bytes) : List FileEntry →
    List (Path × Bytes) × List Path × Option WalkEnd
  | [] => ([], [], none)
  | f :: rest =>
    match processFile p keyLoader givenKey f with
    | .abort e left =>
      ((f.path, left) :: rest.map (fun g => (g.path, g.content)), [],
        some (.ioAbort e))
    | .skip =>
      let r := runWalk p keyLoader givenKey rest
      ((f.path, f.content) :: r.1, r.2)
    | .recordFail =>
      let r := runWalk p keyLoader givenKey rest
      ((f.path, f.content) :: r.1, f.path :: r.2.1, r.2.2)
    | .fatalExit =>
      ((f.path, f.content) :: rest.map (fun g => (g.path, g.content)), [],
        some .procExit)
    | .wrote out =>
      let r := runWalk p keyLoader givenKey rest
      ((f.path, out) :: r.1, r.2)

/-- The result of `recursiveDecrypt`: a walk-aborting I/O error is returned
as such; otherwise, when any per-file error was recorded, the aggregate
`"unable to decrypt some files"` failure. -/
inductive RDErr where
  | io (e : Nat)
  | partialFailure
deriving DecidableEq

/-- Go `recursiveDecrypt` (siv.go): run the walk, then return the aborting
error, the aggregate failure, or success, together with the final file
contents.  `none` in the second component marks the process dying inside
`decompress`: the function never returns a value at all. -/
def recursiveDecrypt (p : Prims) (keyLoader : Path → Except Err Bytes)
    (givenKey : Bytes) (entries : List FileEntry) :
    List (Path × Bytes) × Option (Except RDErr Unit) :=
  let r := runWalk p keyLoader givenKey entries
  (r.1, match r.2.2 with
        | some (.ioAbort e) => some (.error (.io e))
        | some .procExit => none
        | none =>
          some (if r.2.1 ≠ [] then .error .partialFailure else .ok ()))

/-- Every I/O operation on the entry succeeds. -/
def ioOk (f : FileEntry) : Prop :=
  f.openErr = none ∧ f.readChunkErr = none ∧ f.readAllErr = none ∧
    f.truncateErr = none ∧ f.seekErr = none ∧ f.writeErr = none

instance (f : FileEntry) : Decidable (ioOk f) := by
  unfold ioOk; infer_instance

/-- The file carries the SIV marker in the peeked chunk. -/
def markerFile (f : FileEntry) : Bool :=
  sivMarker.isPrefixOf (f.content.take sivDefaultHeader.length)

/-- The key the callback would decrypt the entry with: the explicit key when
one was given, else the loaded one; `none` when the file is skipped or the
load fails. -/
def usedKey (keyLoader : Path → Except Err Bytes) (givenKey : Bytes)
    (f : FileEntry) : Option Bytes :=
  if !markerFile f then none
  else if givenKey.length = 0 then (keyLoader f.path).toOption
  else some givenKey

/-- The per-file failure `recursiveDecrypt` records for an entry whose I/O
succeeds: the marker is present but the key cannot be resolved or the blob
does not decrypt. -/
def perFileFails (p : Prims) (keyLoader : Path → Except Err Bytes)
    (givenKey : Bytes) (f : FileEntry) : Bool :=
  markerFile f &&
    match (if givenKey.length = 0 then keyLoader f.path else .ok givenKey) with
    | .error _ => true
    | .ok key => (decrypt p f.content key).isErr

/-- Does the entry drive the walk into the fatal `decompress` exit: the
marker is present, a key is resolved, and decryption of its bytes under that
key ends in `.fatal`? -/
def fatalFile (p : Prims) (keyLoader : Path → Except Err Bytes)
    (givenKey : Bytes) (f : FileEntry) : Bool :=
  markerFile f &&
    match (if givenKey.length = 0 then keyLoader f.path else .ok givenKey) with
    | .error _ => false
    | .ok key =>
      match decrypt p f.content key with
      | .fatal => true
      | _ => false

/-- The bytes an entry whose I/O succeeds holds after the walk. -/
def finContent (p : Prims) (keyLoader : Path → Except Err Bytes)
    (givenKey : Bytes) (f : FileEntry) : Bytes :=
  match processFile p keyLoader givenKey f with
  | .wrote out => out
  | _ => f.content

/-- A flat filesystem as an association list from file names to contents
(file modes carry no claim beyond C1's divergence note and are omitted). -/
abbrev FileMap := List (String × Bytes)

/-- Look a file up. -/
def fmGet (m : FileMap) (k : String) : Option Bytes :=
  (m.find? (fun kv => kv.1 == k)).map (fun kv => kv.2)

/-- Remove a file (`os.Remove`; the source ignores its error). -/
def fmRemove (m : FileMap) (k : String) : FileMap :=
  m.filter (fun kv => kv.1 != k)

/-- Create or overwrite a file (`os.WriteFile`, `os.CreateTemp` plus
`WriteString`). -/
def fmSet (m : FileMap) (k : String) (v : Bytes) : FileMap :=
  fmRemove m k ++ [(k, v)]

/-- The eight `-merge-file` arguments, in the order git passes them:
`%O %A %B marker-size %P label1 label2 label3`. -/
structure MergeArgs where
  base : String
  current : String
  other : String
  markerSize : String
  output : String
  label1 : String
  label2 : String
  label3 : String

/-- Go `mergeFile` (strongbox.go): smudge the three input blobs into fresh
temporary files `t0 t1 t2` (each registered for deletion), run
`git merge-file --marker-size=… --stdout -L… current base other` over them
(`git` models that child process; `.error` is its failure, a `log.Fatal`
which exits before the deferred removals run), write the merged bytes with
`os.WriteFile(current, merged, 0644)` — `current` having been rebound to the
temporary `t1` — and finally run the deferred removals of the three
temporaries. -/
def mergeFile (p : Prims) (aenv : AgeEnv) (kl : Path → Except Err Bytes)
    (git : Bytes → Bytes → Bytes → String → String → String → String →
      Except Err Bytes)
    (fs0 : FileMap) (a : MergeArgs) (t0 t1 t2 : String) :
    Except Err FileMap :=
  match fmGet fs0 a.base with
  | none => .error (.ioErr 0)
  | some cb =>
  match smudge p aenv kl cb [a.base] with
  | .error e => .error e
  | .ok sb =>
  let fs1 := fmSet fs0 t0 sb
  match fmGet fs1 a.current with
  | none => .error (.ioErr 0)
  | some cc =>
  match smudge p aenv kl cc [a.current] with
  | .error e => .error e
  | .ok sc =>
  let fs2 := fmSet fs1 t1 sc
  match fmGet fs2 a.other with
  | none => .error (.ioErr 0)
  | some co =>
  match smudge p aenv kl co [a.other] with
  | .error e => .error e
  | .ok so =>
  let fs3 := fmSet fs2 t2 so
  match fmGet fs3 t1, fmGet fs3 t0, fmGet fs3 t2 with
  | some mc, some mb, some mo =>
    (match git mc mb mo a.markerSize a.label1 a.label2 a.label3 with
     | .error e => .error e
     | .ok merged =>
       let fs4 := fmSet fs3 t1 merged
       .ok (fmRemove (fmRemove (fmRemove fs4 t2) t1) t0))
  | _, _, _ => .error (.ioErr 1)

/-- One operating-system process running `encrypt`: the process holds an
entropy source (`crypto/rand`, read elsewhere, e.g. by `genKey`), modelled as
a stream handed to the run and returned with the output; the body of
`encrypt` is translated as is and consumes none of it. -/
def encryptRun (p : Prims) (b key : Bytes) (entropy : List Nat) :
    Bytes × List Nat :=
  (encrypt p b key, entropy)

/-! Helper lemmas. -/

theorem splitFirstNL_append (x y : Bytes) (h : (10 : Nat) ∉ x) :
    splitFirstNL (x ++ 10 :: y) = some (x, y) := by
  induction x with
  | nil => simp [splitFirstNL]
  | cons c rest ih =>
    have hc : c ≠ 10 := fun hc => h (hc ▸ List.mem_cons_self c rest)
    have hrest : (10 : Nat) ∉ rest := fun hm => h (List.mem_cons_of_mem c hm)
    simp [splitFirstNL, hc, ih hrest]

theorem wrap76_filter (x : Bytes) :
    (wrap76 x).filter (fun c => c != 10) = x.filter (fun c => c != 10) := by
  induction x using wrap76.induct with
  | case1 => simp [wrap76]
  | case2 x hx ih =>
    rw [wrap76]
    simp only [hx, dite_false, List.filter_append, List.filter_cons,
      bne_self_eq_false, Bool.false_eq_true, if_false, ih]
    rw [← List.filter_append, List.take_append_drop]

theorem filter_ne10_eq_self (x : Bytes) (h : (10 : Nat) ∉ x) :
    x.filter (fun c => c != 10) = x := by
  refine List.filter_eq_self.mpr ?_
  intro a ha
  have : a ≠ 10 := fun he => h (he ▸ ha)
  simpa using this

theorem sivDefaultHeader_split : sivDefaultHeader = sivDefaultHeader.dropLast ++ [10] := by
  decide

theorem no10_header_body : (10 : Nat) ∉ sivDefaultHeader.dropLast := by
  decide

theorem armor_not_prefix_of_enc (w : Bytes) :
    armorHeader.isPrefixOf (sivDefaultHeader ++ w) = false := rfl

theorem marker_prefix_of_enc (w : Bytes) :
    sivMarker.isPrefixOf (sivDefaultHeader ++ w) = true := rfl

theorem header_prefix_self_append (w : Bytes) :
    sivDefaultHeader.isPrefixOf (sivDefaultHeader ++ w) = true := by
  rw [List.isPrefixOf_iff_prefix]
  exact List.prefix_append _ _

theorem isPrefixOf_append_of (x y z : Bytes) (h : x.isPrefixOf y = true) :
    x.isPrefixOf (y ++ z) = true := by
  rw [List.isPrefixOf_iff_prefix] at h ⊢
  exact h.trans (List.prefix_append y z)

theorem decrypt_header_body (p : Prims) (body priv : Bytes) :
    decrypt p (sivDefaultHeader ++ body) priv =
      match p.b64decode body with
      | none => .err
      | some ct =>
        match p.sivDecrypt priv ct with
        | none => .err
        | some m =>
          match p.gunzip m with
          | none => .fatal
          | some b => .ok b := by
  unfold decrypt
  rw [sivDefaultHeader_split, List.append_assoc, List.singleton_append,
    splitFirstNL_append _ _ no10_header_body]

/-- C2: for every plaintext (the empty one included) and every key, SIV
decryption inverts SIV encryption, and smudge applied to the output of clean
recovers the working-copy content byte-for-byte.  The hypotheses state the
contracts of the external primitives: gzip round-trips, AES-SIV round-trips
under the fixed key, and the standard base-64 codec round-trips, emits no
newline and ignores newlines when decoding. -/
theorem siv_roundtrip (p : Prims) (key b : Bytes)
    (hgz : ∀ x, p.gunzip (p.gzip x) = some x)
    (hsiv : ∀ m, p.sivDecrypt key (p.sivEncrypt key m) = some m)
    (h10 : ∀ x, (10 : Nat) ∉ p.b64encode x)
    (hnl : ∀ s, p.b64decode (s.filter (fun c => c != 10)) = p.b64decode s)
    (hrt : ∀ x, p.b64decode (p.b64encode x) = some x) :
    decrypt p (encrypt p b key) key = .ok b ∧
    ∀ (env : Env) (aenv aenv2 : AgeEnv) (kl : Path → Except Err Bytes)
      (f : Path) (c : Bytes),
      sivMarker.isPrefixOf b = false → armorHeader.isPrefixOf b = false →
      findRecipients p env f = (none, some key, none) →
      kl f = .ok key →
      clean p env aenv b f = .ok c →
      smudge p aenv2 kl c f = .ok b := by
  have hb : p.b64decode (wrap76 (p.b64encode (p.sivEncrypt key (p.gzip b)))) =
      some (p.sivEncrypt key (p.gzip b)) := by
    rw [← hnl, wrap76_filter, filter_ne10_eq_self _ (h10 _), hrt]
  have h1 : decrypt p (encrypt p b key) key = .ok b := by
    unfold encrypt
    rw [decrypt_header_body]
    simp only [hb, hsiv, hgz]
  refine ⟨h1, ?_⟩
  intro env aenv aenv2 kl f c hm ha hfr hkl hc
  unfold clean at hc
  rw [hm, ha] at hc
  simp only [Bool.or_self, Bool.false_eq_true, if_false, hfr] at hc
  simp only [List.nil_append] at hc
  injection hc with hc
  subst hc
  unfold smudge
  unfold encrypt
  rw [armor_not_prefix_of_enc, marker_prefix_of_enc]
  simp only [Bool.false_eq_true, if_false, if_true, hkl]
  unfold encrypt at h1
  rw [h1]

/-! Concrete instantiations of the external primitives, used to evaluate the
theorems on concrete inputs.  The codec shifts every byte by 11 (so that the
encoded text holds no newline byte 10) and the decoder skips newlines, which
satisfies every hypothesis the theorems place on the external codecs. -/

/-- A concrete primitive bundle satisfying the external contracts. -/
def trivialPrims : Prims where
  sivEncrypt := fun _ m => m
  sivDecrypt := fun _ c => some c
  gzip := fun b => b
  gunzip := fun b => some b
  b64encode := fun b => b.map (fun n => n + 11)
  b64decode := fun s => some ((s.filter (fun c => c != 10)).map (fun n => n - 11))

theorem trivial_hgz : ∀ x, trivialPrims.gunzip (trivialPrims.gzip x) = some x :=
  fun _ => rfl

theorem trivial_hsiv (k : Bytes) :
    ∀ m, trivialPrims.sivDecrypt k (trivialPrims.sivEncrypt k m) = some m :=
  fun _ => rfl

theorem trivial_h10 : ∀ x, (10 : Nat) ∉ trivialPrims.b64encode x := by
  intro x hx
  simp only [trivialPrims, List.mem_map] at hx
  obtain ⟨a, _, ha⟩ := hx
  omega

theorem trivial_hnl :
    ∀ s, trivialPrims.b64decode (s.filter (fun c => c != 10)) =
      trivialPrims.b64decode s := by
  intro s
  simp [trivialPrims, List.filter_filter]

theorem trivial_hrt :
    ∀ x, trivialPrims.b64decode (trivialPrims.b64encode x) = some x := by
  intro x
  simp only [trivialPrims]
  have hf : (x.map (fun n => n + 11)).filter (fun c => c != 10) =
      x.map (fun n => n + 11) := by
    refine List.filter_eq_self.mpr ?_
    intro a ha
    simp only [List.mem_map] at ha
    obtain ⟨y, _, hy⟩ := ha
    simp only [bne_iff_ne, ne_eq]
    omega
  rw [hf, List.map_map]
  have hid : ((fun n => n - 11) ∘ fun n => n + 11) = (id : Nat → Nat) := by
    funext n
    simp
  rw [hid, List.map_id]

/-- A concrete age environment for witnesses. -/
def aenv0 : AgeEnv where
  identityFileData := none
  parseIdentities := fun _ => .error .decodeErr
  ageOpen := fun _ _ => .error .decodeErr
  existsAtHEAD := fun _ => false
  fileAtHEAD := fun _ => []
  recipientChanged := fun _ => false
  armorBody := fun _ _ => []

/-- A concrete filesystem environment: every path is a directory, the only
binding file is a key-id file at the root whose bytes decode (under
`trivialPrims`) to 32 bytes, and the keyring maps every id to the empty
key. -/
def env0 : Env where
  isDir := fun _ => true
  isFile := fun q => q == [kidName]
  readFile := fun _ => .ok (List.replicate 32 14)
  parseRecips := fun _ => .error (.libErr 0)
  krLoad := .ok ()
  krKey := fun _ => .ok []

/-- A concrete key loader for witnesses. -/
def kl0 : Path → Except Err Bytes := fun _ => .ok []

theorem env0_resolves :
    findRecipients trivialPrims env0 ["s"] = (none, some [], none) := by
  show findRecipientsFrom trivialPrims env0 [] = (none, some [], none)
  rw [findRecipientsFrom]
  rfl

/-- Witness for `siv_roundtrip` at the empty key, plaintext `[1, 2, 3]` and a
concrete environment. -/
theorem siv_roundtrip_witness :
    decrypt trivialPrims (encrypt trivialPrims [1, 2, 3] []) [] = .ok [1, 2, 3] ∧
    smudge trivialPrims aenv0 kl0 (encrypt trivialPrims [1, 2, 3] []) ["s"] =
      .ok [1, 2, 3] := by
  have h := siv_roundtrip trivialPrims [] [1, 2, 3] trivial_hgz (trivial_hsiv [])
    trivial_h10 trivial_hnl trivial_hrt
  refine ⟨h.1, ?_⟩
  refine h.2 env0 aenv0 aenv0 kl0 ["s"] _ (by decide) (by decide) env0_resolves rfl ?_
  unfold clean
  rw [env0_resolves]
  simp [show sivMarker.isPrefixOf [1, 2, 3] = false from rfl,
    show armorHeader.isPrefixOf [1, 2, 3] = false from rfl]

/-- Split a byte string into its newline-separated lines (the final newline
opens one trailing empty line, as in the blob format). -/
def linesOf : Bytes → List Bytes
  | [] => [[]]
  | c :: rest =>
    if c = 10 then [] :: linesOf rest
    else (c :: (linesOf rest).headD []) :: (linesOf rest).tail

theorem linesOf_append (a b : Bytes) (ha : (10 : Nat) ∉ a) :
    linesOf (a ++ 10 :: b) = a :: linesOf b := by
  induction a with
  | nil => simp [linesOf]
  | cons c rest ih =>
    have hc : ¬c = 10 := fun hc => ha (hc ▸ List.mem_cons_self c rest)
    have hrest : (10 : Nat) ∉ rest := fun hm => ha (List.mem_cons_of_mem c hm)
    simp [linesOf, hc, ih hrest]

theorem wrap76_lines_le (x : Bytes) (hx : (10 : Nat) ∉ x) :
    ((linesOf (wrap76 x)).all (fun l => decide (l.length ≤ 76))) = true := by
  induction x using wrap76.induct with
  | case1 => simp [wrap76, linesOf]
  | case2 x hne ih =>
    rw [wrap76]
    simp only [hne, dite_false]
    have htake : (10 : Nat) ∉ x.take 76 := fun hm => hx (List.take_subset 76 x hm)
    have hdrop : (10 : Nat) ∉ x.drop 76 := fun hm => hx (List.drop_subset 76 x hm)
    rw [linesOf_append _ _ htake]
    simp only [List.all_cons, Bool.and_eq_true, decide_eq_true_eq]
    exact ⟨x.length_take_le 76, ih hdrop⟩

/-- C3: SIV encryption is deterministic across independent runs: two
processes given the same plaintext and key emit byte-identical output, the
output of a run is the pure function of the plaintext and key, it opens with
the documented marker line, and (whenever the base-64 text is newline-free,
as the standard encoding guarantees) the wrapped body consists of lines of
at most 76 bytes. -/
theorem siv_encrypt_deterministic (p : Prims) (b key : Bytes)
    (e1 e2 : List Nat) :
    (encryptRun p b key e1).1 = (encryptRun p b key e2).1 ∧
    (encryptRun p b key e1).1 = encrypt p b key ∧
    sivDefaultHeader.isPrefixOf (encrypt p b key) = true ∧
    ((10 : Nat) ∉ p.b64encode (p.sivEncrypt key (p.gzip b)) →
      ((linesOf ((encrypt p b key).drop sivDefaultHeader.length)).all
        (fun l => decide (l.length ≤ 76))) = true) := by
  refine ⟨rfl, rfl, ?_, fun h10 => ?_⟩
  · exact header_prefix_self_append _
  · unfold encrypt
    rw [List.drop_left]
    exact wrap76_lines_le _ h10

/-- Witness for `siv_encrypt_deterministic` on two distinct entropy streams
and the concrete primitives. -/
theorem siv_encrypt_deterministic_witness :
    (encryptRun trivialPrims [1, 2] [] [5]).1 =
      (encryptRun trivialPrims [1, 2] [] [7]).1 ∧
    ((linesOf ((encrypt trivialPrims [1, 2] []).drop sivDefaultHeader.length)).all
      (fun l => decide (l.length ≤ 76))) = true := by
  have h := siv_encrypt_deterministic trivialPrims [1, 2] [] [5] [7]
  exact ⟨h.1, h.2.2.2 (trivial_h10 _)⟩

theorem armor_not_prefix_of_marker (inB : Bytes)
    (h : sivMarker.isPrefixOf inB = true) :
    armorHeader.isPrefixOf inB = false := by
  cases inB with
  | nil => simp [sivMarker, List.isPrefixOf] at h
  | cons c rest =>
    simp only [sivMarker, List.isPrefixOf, Bool.and_eq_true, beq_iff_eq] at h
    obtain ⟨hc, -⟩ := h
    subst hc
    simp [armorHeader, List.isPrefixOf]

/-- C6 (amended): on input carrying the SIV marker, a key-load failure or an
error return of `decrypt` (missing newline, base-64 failure, or SIV
authentication failure) makes smudge write the input through unchanged,
without a fatal exit (`.ok`; the failure is at most logged, which the pure
model omits); but when the authenticated bytes fail gzip decompression, the
process terminates fatally inside `decompress` and nothing is passed
through. -/
theorem smudge_siv_fail_passthrough (p : Prims) (aenv : AgeEnv)
    (kl : Path → Except Err Bytes) (inB : Bytes) (f : Path)
    (hpre : sivMarker.isPrefixOf inB = true) :
    ((∃ e, kl f = .error e) ∨ (∃ k, kl f = .ok k ∧ decrypt p inB k = .err) →
      smudge p aenv kl inB f = .ok inB) ∧
    (∀ k, kl f = .ok k → decrypt p inB k = .fatal →
      smudge p aenv kl inB f = .error .decompressFatal) := by
  constructor
  · intro hfail
    unfold smudge
    rw [armor_not_prefix_of_marker inB hpre, hpre]
    simp only [Bool.false_eq_true, if_false, if_true]
    rcases hfail with ⟨e, he⟩ | ⟨k, hk, hd⟩
    · rw [he]
    · simp only [hk, hd]
  · intro k hk hd
    unfold smudge
    rw [armor_not_prefix_of_marker inB hpre, hpre]
    simp only [Bool.false_eq_true, if_false, if_true, hk, hd]

/-- A key loader that always fails, for witnesses. -/
def klErr : Path → Except Err Bytes := fun _ => .error .keyNotFound

/-- A concrete primitive bundle on which the fatal decompress path is
reachable, consistent with the external contracts: the gzip model tags its
output with a leading 1, so `gunzip` inverts it but fails on untagged bytes
(as real gzip decompression fails on streams it did not produce). -/
def fatalPrims : Prims where
  sivEncrypt := fun _ m => m
  sivDecrypt := fun _ c => some c
  gzip := fun b => 1 :: b
  gunzip := fun b =>
    match b with
    | 1 :: rest => some rest
    | _ => none
  b64encode := fun b => b.map (fun n => n + 11)
  b64decode := fun s => some ((s.filter (fun c => c != 10)).map (fun n => n - 11))

/-- A marker blob whose base-64 body authenticates under every `fatalPrims`
key but whose plaintext `[0]` is not a valid gzip stream — the shape any
key-holder can craft against the real codec. -/
def badBlob : Bytes := sivDefaultHeader ++ [11]

/-- Counterexample to C6 as stated: on `badBlob` the key loads and SIV
decryption fails (in its decompression step), yet smudge does not pass the
input through — the process dies in the fatal `decompress` exit. -/
theorem smudge_decompress_fatal_counterexample :
    sivMarker.isPrefixOf badBlob = true ∧
    kl0 [] = .ok [] ∧
    decrypt fatalPrims badBlob [] = .fatal ∧
    smudge fatalPrims aenv0 kl0 badBlob [] = .error .decompressFatal := by
  exact ⟨by decide, rfl, by decide, rfl⟩

/-- Witness for `smudge_siv_fail_passthrough`: the error-return part on the
bare marker bytes with a failing key loader, and the fatal part on
`badBlob`. -/
theorem smudge_siv_fail_passthrough_witness :
    smudge trivialPrims aenv0 klErr sivMarker [] = .ok sivMarker ∧
    smudge fatalPrims aenv0 kl0 badBlob [] = .error .decompressFatal := by
  constructor
  · exact (smudge_siv_fail_passthrough trivialPrims aenv0 klErr sivMarker []
      (by decide)).1 (Or.inl ⟨.keyNotFound, rfl⟩)
  · exact (smudge_siv_fail_passthrough fatalPrims aenv0 kl0 badBlob []
      (by decide)).2 [] rfl (by decide)

/-- C7: key-id file parsing (given that reading the file yields `fp`)
succeeds exactly when base-64-decoding the whitespace-trimmed content
succeeds with exactly 32 decoded bytes, returning those bytes; any other
decoded length is the malformed-key-id error carrying that length; a decode
failure is the decode error. -/
theorem readKeyID_spec (p : Prims) (env : Env) (f : Path) (fp : Bytes)
    (hread : env.readFile f = .ok fp) :
    (∀ b, p.b64decode (trimSpace fp) = some b → b.length = 32 →
      readKeyID p env f = .ok b) ∧
    (∀ b, p.b64decode (trimSpace fp) = some b → b.length ≠ 32 →
      readKeyID p env f = .error (.badKeyLength b.length)) ∧
    (p.b64decode (trimSpace fp) = none →
      readKeyID p env f = .error .decodeErr) ∧
    ((readKeyID p env f).isOk = true ↔
      ∃ b, p.b64decode (trimSpace fp) = some b ∧ b.length = 32) := by
  refine ⟨?_, ?_, ?_, ?_⟩
  · intro b hdec hlen
    simp [readKeyID, hread, hdec, hlen]
  · intro b hdec hlen
    simp [readKeyID, hread, hdec, hlen]
  · intro hdec
    simp [readKeyID, hread, hdec]
  · simp only [readKeyID, hread]
    cases hdec : p.b64decode (trimSpace fp) with
    | none => simp [Except.isOk, Except.toBool]
    | some b =>
      by_cases hlen : b.length = 32
      · simp [hlen, Except.isOk, Except.toBool]
      · simp [hlen, Except.isOk, Except.toBool]

/-- Witness for `readKeyID_spec` on the concrete environment, whose key-id
file bytes decode to 32 bytes. -/
theorem readKeyID_spec_witness :
    readKeyID trivialPrims env0 ["k"] = .ok (List.replicate 32 3) :=
  (readKeyID_spec trivialPrims env0 ["k"] (List.replicate 32 14) rfl).1
    (List.replicate 32 3) (by decide) (by decide)

theorem age_encrypt_armored (aenv : AgeEnv) (r : Recips) (inB : Bytes)
    (f : Path) : armorHeader.isPrefixOf (ageEncrypt aenv r inB f) = true := by
  unfold ageEncrypt
  by_cases h : (agePlaintextEqual aenv inB f && !aenv.recipientChanged f) = true
  · rw [if_pos h]
    have := (Bool.and_eq_true _ _).mp h
    unfold agePlaintextEqual at this
    have h2 := (Bool.and_eq_true _ _).mp this.1
    exact ((Bool.and_eq_true _ _).mp h2.1).2
  · rw [if_neg h]
    rw [List.isPrefixOf_iff_prefix]
    exact List.prefix_append _ _

/-- C5: clean passes an input that already carries the SIV marker or the age
armor header through unchanged, and consequently clean is idempotent: a
second clean of any successful clean output returns it unchanged. -/
theorem clean_passthrough_idem (p : Prims) (env : Env) (aenv : AgeEnv) :
    (∀ inB f, (sivMarker.isPrefixOf inB || armorHeader.isPrefixOf inB) = true →
      clean p env aenv inB f = .ok inB) ∧
    (∀ P f c, clean p env aenv P f = .ok c → clean p env aenv c f = .ok c) := by
  have hpass : ∀ inB f,
      (sivMarker.isPrefixOf inB || armorHeader.isPrefixOf inB) = true →
      clean p env aenv inB f = .ok inB := by
    intro inB f h
    unfold clean
    rw [if_pos h]
  refine ⟨hpass, ?_⟩
  intro P f c h
  unfold clean at h
  by_cases hcond : (sivMarker.isPrefixOf P || armorHeader.isPrefixOf P) = true
  · rw [if_pos hcond] at h
    injection h with h
    subst h
    exact hpass P f hcond
  · rw [if_neg hcond] at h
    rcases hfr : findRecipients p env f with ⟨r?, k?, e?⟩
    rw [hfr] at h
    cases e? with
    | some e => simp at h
    | none =>
      cases r? with
      | some r =>
        have harm : armorHeader.isPrefixOf (ageEncrypt aenv r P f) = true :=
          age_encrypt_armored aenv r P f
        cases k? with
        | some k =>
          simp only [] at h
          injection h with h
          subst h
          refine hpass _ f ?_
          rw [isPrefixOf_append_of _ _ _ harm, Bool.or_true]
        | none =>
          simp only [List.append_nil] at h
          injection h with h
          subst h
          refine hpass _ f ?_
          rw [harm, Bool.or_true]
      | none =>
        cases k? with
        | some k =>
          simp only [List.nil_append] at h
          injection h with h
          subst h
          refine hpass _ f ?_
          unfold encrypt
          rw [marker_prefix_of_enc, Bool.true_or]
        | none =>
          simp only [List.append_nil] at h
          injection h with h
          subst h
          unfold clean
          rw [if_neg (by decide : ¬((sivMarker.isPrefixOf ([] : Bytes) ||
            armorHeader.isPrefixOf ([] : Bytes)) = true)), hfr]
          rfl

/-- Witness for `clean_passthrough_idem`: a marker-prefixed input passes
through, and cleaning the clean output of a concrete plaintext under the
concrete SIV binding returns it unchanged. -/
theorem clean_passthrough_idem_witness :
    clean trivialPrims env0 aenv0 sivMarker [] = .ok sivMarker ∧
    clean trivialPrims env0 aenv0 (encrypt trivialPrims [1, 2, 3] []) ["s"] =
      .ok (encrypt trivialPrims [1, 2, 3] []) := by
  have h := clean_passthrough_idem trivialPrims env0 aenv0
  refine ⟨h.1 sivMarker [] (by decide), ?_⟩
  refine h.2 [1, 2, 3] ["s"] _ ?_
  unfold clean
  rw [env0_resolves]
  simp [show sivMarker.isPrefixOf [1, 2, 3] = false from rfl,
    show armorHeader.isPrefixOf [1, 2, 3] = false from rfl]

/-- The binding outcome of the source at a matched directory `d` (the body of
the two `return` branches of `findRecipients`). -/
def bindingAt (p : Prims) (env : Env) (d : Path) : FindRes :=
  if env.isFile (d ++ [recipName]) then
    match env.parseRecips (d ++ [recipName]) with
    | .ok r => (some r, none, none)
    | .error e => (none, none, some e)
  else
    match sivFileToKey p env (d ++ [kidName]) with
    | .ok k => (none, some k, none)
    | .error e => (none, some [], some e)

theorem checkBindingDir_getD (p : Prims) (env : Env) (d : Path)
    (cont : FindRes) :
    (checkBindingDir p env d).getD cont =
      if env.isDir d &&
          (env.isFile (d ++ [recipName]) || env.isFile (d ++ [kidName])) then
        bindingAt p env d
      else cont := by
  unfold checkBindingDir bindingAt
  cases h1 : env.isDir d <;>
    cases h2 : env.isFile (d ++ [recipName]) <;>
      cases h3 : env.isFile (d ++ [kidName]) <;>
        simp [h1, h2, h3]

theorem findRecipientsFrom_eq_find (p : Prims) (env : Env) (path : Path) :
    findRecipientsFrom p env path =
      match (parentChain path).find? (fun d => env.isDir d &&
          (env.isFile (d ++ [recipName]) || env.isFile (d ++ [kidName]))) with
      | none => (none, none, some .bindingNotFound)
      | some d => bindingAt p env d := by
  induction path using findRecipientsFrom.induct p env with
  | case1 =>
    rw [findRecipientsFrom, checkBindingDir_getD]
    rw [parentChain]
    rw [List.find?]
    cases hh : (env.isDir [] &&
        (env.isFile ([] ++ [recipName]) || env.isFile ([] ++ [kidName]))) <;>
      simp [hh]
  | case2 s rest ih =>
    rw [findRecipientsFrom, checkBindingDir_getD]
    rw [parentChain]
    rw [List.find?]
    cases hh : (env.isDir (s :: rest) && (env.isFile ((s :: rest) ++ [recipName]) ||
        env.isFile ((s :: rest) ++ [kidName]))) <;> simp [hh, ih]

/-- C4: binding resolution walks from `dirname(P)` up to the tree root and
acts on the first directory holding a binding file, a recipient file taking
precedence over a key-id file of the same directory, and fails with the
binding-not-found error when the walk exhausts the chain; the result never
carries both age recipients and a SIV key. -/
theorem findRecipients_first_match (p : Prims) (env : Env) (f : Path) :
    findRecipients p env f = specResolve p env f ∧
    ((findRecipients p env f).1.isSome &&
      (findRecipients p env f).2.1.isSome) = false := by
  have heq : findRecipients p env f = specResolve p env f := by
    unfold findRecipients specResolve
    rw [findRecipientsFrom_eq_find]
    cases hfind : (parentChain f.dropLast).find? (fun d => env.isDir d &&
        (env.isFile (d ++ [recipName]) || env.isFile (d ++ [kidName]))) with
    | none => rfl
    | some d =>
      simp only [bindingAt]
  refine ⟨heq, ?_⟩
  rw [heq]
  unfold specResolve
  cases hfind : (parentChain f.dropLast).find? (fun d => env.isDir d &&
      (env.isFile (d ++ [recipName]) || env.isFile (d ++ [kidName]))) with
  | none => rfl
  | some d =>
    simp only []
    by_cases h2 : env.isFile (d ++ [recipName]) = true
    · rw [if_pos h2]
      cases env.parseRecips (d ++ [recipName]) <;> rfl
    · rw [if_neg h2]
      cases sivFileToKey p env (d ++ [kidName]) <;> rfl

theorem processFile_skip (p : Prims) (kl : Path → Except Err Bytes)
    (gk : Bytes) (f : FileEntry) (h : ioOk f) (hm : markerFile f = false) :
    processFile p kl gk f = .skip := by
  obtain ⟨h1, h2, h3, h4, h5, h6⟩ := h
  unfold markerFile at hm
  unfold processFile
  simp [h1, h2, hm]

theorem processFile_marker_eq (p : Prims) (kl : Path → Except Err Bytes)
    (gk : Bytes) (f : FileEntry) (h : ioOk f) (hm : markerFile f = true) :
    processFile p kl gk f =
      match (if gk.length = 0 then kl f.path else .ok gk) with
      | .error _ => .recordFail
      | .ok key =>
        match decrypt p f.content key with
        | .err => .recordFail
        | .fatal => .fatalExit
        | .ok out => .wrote out := by
  obtain ⟨h1, h2, h3, h4, h5, h6⟩ := h
  unfold markerFile at hm
  unfold processFile
  simp only [h1, h2, h3, h4, h5, h6, hm, Bool.not_true, Bool.false_eq_true,
    if_false]

theorem runWalk_ok (p : Prims) (kl : Path → Except Err Bytes) (gk : Bytes)
    (es : List FileEntry) (h : ∀ f ∈ es, ioOk f)
    (hnf : ∀ f ∈ es, fatalFile p kl gk f = false) :
    runWalk p kl gk es =
      (es.map (fun f => (f.path, finContent p kl gk f)),
       (es.filter (perFileFails p kl gk)).map (fun f => f.path), none) := by
  induction es with
  | nil => rfl
  | cons g rest ih =>
    have hg := h g (List.mem_cons_self g rest)
    have hrest := fun x hx => h x (List.mem_cons_of_mem g hx)
    have hnfg := hnf g (List.mem_cons_self g rest)
    have hnfrest := fun x hx => hnf x (List.mem_cons_of_mem g hx)
    simp only [runWalk]
    by_cases hm : markerFile g = true
    case neg =>
      have hm' : markerFile g = false := Bool.eq_false_iff.mpr hm
      have hps := processFile_skip p kl gk g hg hm'
      have hfc : finContent p kl gk g = g.content := by
        unfold finContent
        rw [hps]
      have hpff : perFileFails p kl gk g = false := by
        unfold perFileFails
        simp [hm']
      simp only [hps, ih hrest hnfrest, List.map_cons, List.filter_cons, hpff,
        Bool.false_eq_true, if_false, hfc]
    case pos =>
      have hpm := processFile_marker_eq p kl gk g hg hm
      cases hk : (if gk.length = 0 then kl g.path else .ok gk) with
      | error e =>
        have hps : processFile p kl gk g = .recordFail := by rw [hpm, hk]
        have hfc : finContent p kl gk g = g.content := by
          unfold finContent
          rw [hps]
        have hpff : perFileFails p kl gk g = true := by
          unfold perFileFails
          simp only [hm, Bool.true_and]
          rw [hk]
        simp only [hps, ih hrest hnfrest, List.map_cons, List.filter_cons,
          hpff, if_true, hfc]
      | ok key =>
        cases hd : decrypt p g.content key with
        | err =>
          have hps : processFile p kl gk g = .recordFail := by
            rw [hpm, hk]
            simp [hd]
          have hfc : finContent p kl gk g = g.content := by
            unfold finContent
            rw [hps]
          have hpff : perFileFails p kl gk g = true := by
            unfold perFileFails
            simp only [hm, Bool.true_and]
            rw [hk]
            simp [hd, DecRes.isErr]
          simp only [hps, ih hrest hnfrest, List.map_cons, List.filter_cons,
            hpff, if_true, hfc]
        | fatal =>
          exfalso
          have hft : fatalFile p kl gk g = true := by
            unfold fatalFile
            simp only [hm, Bool.true_and]
            rw [hk]
            simp [hd]
          exact absurd (hnfg.symm.trans hft) (by decide)
        | ok out =>
          have hps : processFile p kl gk g = .wrote out := by
            rw [hpm, hk]
            simp [hd]
          have hfc : finContent p kl gk g = out := by
            unfold finContent
            rw [hps]
          have hpff : perFileFails p kl gk g = false := by
            unfold perFileFails
            simp only [hm, Bool.true_and]
            rw [hk]
            simp [hd, DecRes.isErr]
          simp only [hps, ih hrest hnfrest, List.map_cons, List.filter_cons,
            hpff, Bool.false_eq_true, if_false, hfc]

theorem runWalk_stop (p : Prims) (kl : Path → Except Err Bytes) (gk : Bytes)
    (pre : List FileEntry) (f : FileEntry) (post : List FileEntry)
    (stopPair : Path × Bytes) (stopEnd : WalkEnd)
    (hpre : ∀ g ∈ pre, ioOk g)
    (hnf : ∀ g ∈ pre, fatalFile p kl gk g = false)
    (hf : runWalk p kl gk (f :: post) =
      (stopPair :: post.map (fun g => (g.path, g.content)), [], some stopEnd)) :
    runWalk p kl gk (pre ++ f :: post) =
      (pre.map (fun g => (g.path, finContent p kl gk g)) ++
        stopPair :: post.map (fun g => (g.path, g.content)),
       (pre.filter (perFileFails p kl gk)).map (fun g => g.path),
       some stopEnd) := by
  induction pre with
  | nil => simpa using hf
  | cons g rest ih =>
    have hg := hpre g (List.mem_cons_self g rest)
    have hrest := fun x hx => hpre x (List.mem_cons_of_mem g hx)
    have hnfg := hnf g (List.mem_cons_self g rest)
    have hnfrest := fun x hx => hnf x (List.mem_cons_of_mem g hx)
    simp only [List.cons_append, runWalk]
    by_cases hm : markerFile g = true
    case neg =>
      have hm' : markerFile g = false := Bool.eq_false_iff.mpr hm
      have hps := processFile_skip p kl gk g hg hm'
      have hfc : finContent p kl gk g = g.content := by
        unfold finContent
        rw [hps]
      have hpff : perFileFails p kl gk g = false := by
        unfold perFileFails
        simp [hm']
      simp only [hps, List.append_eq, ih hrest hnfrest, List.map_cons,
        List.filter_cons, hpff, Bool.false_eq_true, if_false, hfc,
        List.cons_append]
    case pos =>
      have hpm := processFile_marker_eq p kl gk g hg hm
      cases hk : (if gk.length = 0 then kl g.path else .ok gk) with
      | error e2 =>
        have hps : processFile p kl gk g = .recordFail := by rw [hpm, hk]
        have hfc : finContent p kl gk g = g.content := by
          unfold finContent
          rw [hps]
        have hpff : perFileFails p kl gk g = true := by
          unfold perFileFails
          simp only [hm, Bool.true_and]
          rw [hk]
        simp only [hps, List.append_eq, ih hrest hnfrest, List.map_cons,
          List.filter_cons, hpff, if_true, hfc, List.cons_append]
      | ok key =>
        cases hd : decrypt p g.content key with
        | err =>
          have hps : processFile p kl gk g = .recordFail := by
            rw [hpm, hk]
            simp [hd]
          have hfc : finContent p kl gk g = g.content := by
            unfold finContent
            rw [hps]
          have hpff : perFileFails p kl gk g = true := by
            unfold perFileFails
            simp only [hm, Bool.true_and]
            rw [hk]
            simp [hd, DecRes.isErr]
          simp only [hps, List.append_eq, ih hrest hnfrest, List.map_cons,
            List.filter_cons, hpff, if_true, hfc, List.cons_append]
        | fatal =>
          exfalso
          have hft : fatalFile p kl gk g = true := by
            unfold fatalFile
            simp only [hm, Bool.true_and]
            rw [hk]
            simp [hd]
          exact absurd (hnfg.symm.trans hft) (by decide)
        | ok out =>
          have hps : processFile p kl gk g = .wrote out := by
            rw [hpm, hk]
            simp [hd]
          have hfc : finContent p kl gk g = out := by
            unfold finContent
            rw [hps]
          have hpff : perFileFails p kl gk g = false := by
            unfold perFileFails
            simp only [hm, Bool.true_and]
            rw [hk]
            simp [hd, DecRes.isErr]
          simp only [hps, List.append_eq, ih hrest hnfrest, List.map_cons,
            List.filter_cons, hpff, Bool.false_eq_true, if_false, hfc,
            List.cons_append]

theorem runWalk_abort (p : Prims) (kl : Path → Except Err Bytes) (gk : Bytes)
    (pre : List FileEntry) (f : FileEntry) (post : List FileEntry)
    (e : Nat) (left : Bytes) (hpre : ∀ g ∈ pre, ioOk g)
    (hnf : ∀ g ∈ pre, fatalFile p kl gk g = false)
    (hf : processFile p kl gk f = .abort e left) :
    runWalk p kl gk (pre ++ f :: post) =
      (pre.map (fun g => (g.path, finContent p kl gk g)) ++
        (f.path, left) :: post.map (fun g => (g.path, g.content)),
       (pre.filter (perFileFails p kl gk)).map (fun g => g.path),
       some (.ioAbort e)) := by
  refine runWalk_stop p kl gk pre f post (f.path, left) (.ioAbort e)
    hpre hnf ?_
  simp [runWalk, hf]

theorem runWalk_fatal (p : Prims) (kl : Path → Except Err Bytes) (gk : Bytes)
    (pre : List FileEntry) (f : FileEntry) (post : List FileEntry)
    (hpre : ∀ g ∈ pre, ioOk g)
    (hnf : ∀ g ∈ pre, fatalFile p kl gk g = false)
    (hf : processFile p kl gk f = .fatalExit) :
    runWalk p kl gk (pre ++ f :: post) =
      (pre.map (fun g => (g.path, finContent p kl gk g)) ++
        (f.path, f.content) :: post.map (fun g => (g.path, g.content)),
       (pre.filter (perFileFails p kl gk)).map (fun g => g.path),
       some .procExit) := by
  refine runWalk_stop p kl gk pre f post (f.path, f.content) .procExit
    hpre hnf ?_
  simp [runWalk, hf]

/-- C8 (amended): with error-free I/O and no file driving the fatal
decompress exit, the bulk decryptor visits every file, records per-file
key-resolution and decryption-error failures and continues, and returns the
aggregate failure exactly when at least one entry failed; a file whose open,
read, truncate, seek or write fails aborts the walk at once with that error,
leaving the remaining files untouched; and a file whose authenticated bytes
fail gzip decompression kills the whole process — nothing is returned and
the remaining files stay untouched. -/
theorem recursiveDecrypt_aggregation (p : Prims)
    (kl : Path → Except Err Bytes) (gk : Bytes) :
    (∀ es, (∀ f ∈ es, ioOk f) → (∀ f ∈ es, fatalFile p kl gk f = false) →
      recursiveDecrypt p kl gk es =
        (es.map (fun f => (f.path, finContent p kl gk f)),
         some (if es.any (perFileFails p kl gk) then .error .partialFailure
               else .ok ()))) ∧
    (∀ pre f post e left, (∀ g ∈ pre, ioOk g) →
      (∀ g ∈ pre, fatalFile p kl gk g = false) →
      processFile p kl gk f = .abort e left →
      recursiveDecrypt p kl gk (pre ++ f :: post) =
        (pre.map (fun g => (g.path, finContent p kl gk g)) ++
          (f.path, left) :: post.map (fun g => (g.path, g.content)),
         some (.error (.io e)))) ∧
    (∀ pre f post, (∀ g ∈ pre, ioOk g) →
      (∀ g ∈ pre, fatalFile p kl gk g = false) →
      processFile p kl gk f = .fatalExit →
      recursiveDecrypt p kl gk (pre ++ f :: post) =
        (pre.map (fun g => (g.path, finContent p kl gk g)) ++
          (f.path, f.content) :: post.map (fun g => (g.path, g.content)),
         none)) := by
  refine ⟨?_, ?_, ?_⟩
  · intro es h hnf
    unfold recursiveDecrypt
    rw [runWalk_ok p kl gk es h hnf]
    simp only []
    cases hany : es.any (perFileFails p kl gk) with
    | false =>
      have hnil : es.filter (perFileFails p kl gk) = [] := by
        rw [List.filter_eq_nil_iff]
        intro a ha hpa
        have htrue : es.any (perFileFails p kl gk) = true :=
          List.any_eq_true.mpr ⟨a, ha, hpa⟩
        rw [hany] at htrue
        exact Bool.false_ne_true htrue
      simp [hnil]
    | true =>
      obtain ⟨a, ha, hpa⟩ := List.any_eq_true.mp hany
      have hne : es.filter (perFileFails p kl gk) ≠ [] := fun hnil =>
        (List.filter_eq_nil_iff.mp hnil a ha) hpa
      have hne2 : (es.filter (perFileFails p kl gk)).map
          (fun f => f.path) ≠ [] := by
        rw [Ne, List.map_eq_nil_iff]
        exact hne
      simp [hne2]
  · intro pre f post e left hpre hnf hf
    unfold recursiveDecrypt
    rw [runWalk_abort p kl gk pre f post e left hpre hnf hf]
  · intro pre f post hpre hnf hf
    unfold recursiveDecrypt
    rw [runWalk_fatal p kl gk pre f post hpre hnf hf]

theorem processFile_kl_indep (p : Prims) (kl1 kl2 : Path → Except Err Bytes)
    (gk : Bytes) (hgk : gk ≠ []) (f : FileEntry) :
    processFile p kl1 gk f = processFile p kl2 gk f := by
  have hlen : ¬(gk.length = 0) := by simpa [List.length_eq_zero] using hgk
  unfold processFile
  simp only [if_neg hlen]

theorem runWalk_kl_indep (p : Prims) (kl1 kl2 : Path → Except Err Bytes)
    (gk : Bytes) (hgk : gk ≠ []) (es : List FileEntry) :
    runWalk p kl1 gk es = runWalk p kl2 gk es := by
  induction es with
  | nil => rfl
  | cons g rest ih =>
    simp only [runWalk, processFile_kl_indep p kl1 kl2 gk hgk g, ih]

/-- C9: with a non-empty explicit key, the bulk decryptor never consults the
key loader (its run is identical under any two loaders), and — in a run
whose entries do not hit the fatal decompress exit, the only runs the
refined model distinguishes from the total one — a marker-carrying file
whose decryption under the explicit key fails is recorded as a per-file
failure and keeps its ciphertext. -/
theorem explicit_key_shadows (p : Prims) (kl1 kl2 : Path → Except Err Bytes)
    (gk : Bytes) (hgk : gk ≠ []) :
    (∀ es, runWalk p kl1 gk es = runWalk p kl2 gk es) ∧
    (∀ es f, (∀ g ∈ es, ioOk g) →
      (∀ g ∈ es, fatalFile p kl1 gk g = false) → f ∈ es →
      markerFile f = true → decrypt p f.content gk = .err →
      f.path ∈ (runWalk p kl1 gk es).2.1 ∧
      (f.path, f.content) ∈ (runWalk p kl1 gk es).1) := by
  have hlen : ¬(gk.length = 0) := by simpa [List.length_eq_zero] using hgk
  refine ⟨runWalk_kl_indep p kl1 kl2 gk hgk, ?_⟩
  intro es f h hnf hmem hm hd
  rw [runWalk_ok p kl1 gk es h hnf]
  have hpff : perFileFails p kl1 gk f = true := by
    unfold perFileFails
    simp only [hm, Bool.true_and, if_neg hlen]
    simp [hd, DecRes.isErr]
  constructor
  · exact List.mem_map.mpr ⟨f, List.mem_filter.mpr ⟨hmem, hpff⟩, rfl⟩
  · have hfc : finContent p kl1 gk f = f.content := by
      unfold finContent
      rw [processFile_marker_eq p kl1 gk f (h f hmem) hm]
      rw [if_neg hlen]
      simp [hd]
    exact List.mem_map.mpr ⟨f, hmem, by rw [hfc]⟩

/-- A marker-carrying file entry with error-free I/O, for witnesses. -/
def entA : FileEntry :=
  { path := ["a"], content := sivMarker, openErr := none,
    readChunkErr := none, readAllErr := none, truncateErr := none,
    seekErr := none, writeErr := none }

/-- A plain file entry with error-free I/O, for witnesses. -/
def entB : FileEntry :=
  { path := ["b"], content := [0], openErr := none, readChunkErr := none,
    readAllErr := none, truncateErr := none, seekErr := none,
    writeErr := none }

/-- A file entry whose open fails, for witnesses. -/
def entC : FileEntry :=
  { path := ["c"], content := [1], openErr := some 7, readChunkErr := none,
    readAllErr := none, truncateErr := none, seekErr := none,
    writeErr := none }

/-- A marker-carrying entry whose bytes authenticate under every `fatalPrims`
key but fail gzip decompression, for the C8 counterexample and the fatal
clauses. -/
def entFatal : FileEntry :=
  { path := ["x"], content := badBlob, openErr := none, readChunkErr := none,
    readAllErr := none, truncateErr := none, seekErr := none,
    writeErr := none }

/-- Witness for `explicit_key_shadows` on the explicit key `[1]`, two distinct
key loaders and a marker-carrying entry that does not decrypt under it. -/
theorem explicit_key_shadows_witness :
    runWalk trivialPrims klErr [1] [entA] = runWalk trivialPrims kl0 [1] [entA] ∧
    ["a"] ∈ (runWalk trivialPrims klErr [1] [entA]).2.1 ∧
    (["a"], sivMarker) ∈ (runWalk trivialPrims klErr [1] [entA]).1 := by
  have h := explicit_key_shadows trivialPrims klErr kl0 [1] (by decide)
  have h2 := h.2 [entA] entA (by decide) (by decide)
    (List.mem_cons_self _ _) (by decide) (by decide)
  exact ⟨h.1 [entA], h2.1, h2.2⟩

theorem processFile_shape (p : Prims) (kl : Path → Except Err Bytes)
    (gk : Bytes) (f : FileEntry) :
    processFile p kl gk f = .skip ∨
    processFile p kl gk f = .recordFail ∨
    (∃ e, processFile p kl gk f = .abort e f.content) ∨
    (∃ k, usedKey kl gk f = some k ∧ decrypt p f.content k = .fatal ∧
      processFile p kl gk f = .fatalExit) ∨
    (∃ k out, usedKey kl gk f = some k ∧ decrypt p f.content k = .ok out ∧
      ((∃ e, processFile p kl gk f = .abort e []) ∨
        processFile p kl gk f = .wrote out)) := by
  cases ho : f.openErr with
  | some e1 =>
    exact Or.inr (Or.inr (Or.inl ⟨e1, by simp [processFile, ho]⟩))
  | none =>
  cases hr : f.readChunkErr with
  | some e1 =>
    exact Or.inr (Or.inr (Or.inl ⟨e1, by simp [processFile, ho, hr]⟩))
  | none =>
  cases hm : sivMarker.isPrefixOf (f.content.take sivDefaultHeader.length) with
  | false => exact Or.inl (by simp [processFile, ho, hr, hm])
  | true =>
  cases hk : (if gk.length = 0 then kl f.path else .ok gk) with
  | error e2 =>
    refine Or.inr (Or.inl ?_)
    simp only [processFile, ho, hr, hm, Bool.not_true, Bool.false_eq_true,
      if_false]
    rw [hk]
  | ok key =>
  have hused : usedKey kl gk f = some key := by
    unfold usedKey
    rw [show markerFile f = true from hm]
    simp only [Bool.not_true, Bool.false_eq_true, if_false]
    by_cases hgl : gk.length = 0
    · rw [if_pos hgl] at hk ⊢
      rw [hk]
      rfl
    · rw [if_neg hgl] at hk ⊢
      injection hk with hk
      rw [hk]
  have hkeq : processFile p kl gk f =
      match f.readAllErr with
      | some e => .abort e f.content
      | none =>
        match decrypt p f.content key with
        | .err => .recordFail
        | .fatal => .fatalExit
        | .ok out =>
          match f.truncateErr with
          | some e => .abort e f.content
          | none =>
            match f.seekErr with
            | some e => .abort e []
            | none =>
              match f.writeErr with
              | some e => .abort e []
              | none => .wrote out := by
    simp only [processFile, ho, hr, hm, Bool.not_true, Bool.false_eq_true,
      if_false]
    rw [hk]
  cases hra : f.readAllErr with
  | some e1 =>
    exact Or.inr (Or.inr (Or.inl ⟨e1, by rw [hkeq, hra]⟩))
  | none =>
  cases hd : decrypt p f.content key with
  | err =>
    refine Or.inr (Or.inl ?_)
    rw [hkeq, hra]
    simp only [hd]
  | fatal =>
    refine Or.inr (Or.inr (Or.inr (Or.inl ⟨key, hused, hd, ?_⟩)))
    rw [hkeq, hra]
    simp only [hd]
  | ok out =>
  cases ht : f.truncateErr with
  | some e1 =>
    refine Or.inr (Or.inr (Or.inl ⟨e1, ?_⟩))
    rw [hkeq, hra]
    simp only [hd, ht]
  | none =>
  cases hs : f.seekErr with
  | some e1 =>
    refine Or.inr (Or.inr (Or.inr (Or.inr ⟨key, out, hused, hd,
      Or.inl ⟨e1, ?_⟩⟩)))
    rw [hkeq, hra]
    simp only [hd, ht, hs]
  | none =>
  cases hwr : f.writeErr with
  | some e1 =>
    refine Or.inr (Or.inr (Or.inr (Or.inr ⟨key, out, hused, hd,
      Or.inl ⟨e1, ?_⟩⟩)))
    rw [hkeq, hra]
    simp only [hd, ht, hs, hwr]
  | none =>
    refine Or.inr (Or.inr (Or.inr (Or.inr ⟨key, out, hused, hd,
      Or.inr ?_⟩)))
    rw [hkeq, hra]
    simp only [hd, ht, hs, hwr]

/-- C10: an entry whose decryption ends in an error return whenever it is
attempted keeps its original bytes in the walk's outcome; conversely an
entry whose final bytes differ from its original ones had a key and a
successful decryption (truncation and rewriting happen only after a
successful decrypt — an error return or even the fatal decompress exit
leaves the bytes untouched). -/
theorem decrypt_fail_unchanged (p : Prims) (kl : Path → Except Err Bytes)
    (gk : Bytes) :
    (∀ (es : List FileEntry) (i : Nat) (f : FileEntry), es[i]? = some f →
      (∀ k, usedKey kl gk f = some k → decrypt p f.content k = .err) →
      (runWalk p kl gk es).1[i]? = some (f.path, f.content)) ∧
    (∀ (es : List FileEntry) (i : Nat) (f : FileEntry) (pe : Path × Bytes),
      es[i]? = some f → (runWalk p kl gk es).1[i]? = some pe →
      pe.2 ≠ f.content →
      ∃ k, usedKey kl gk f = some k ∧
        (decrypt p f.content k).isOk = true) := by
  constructor
  · intro es
    induction es with
    | nil =>
      intro i f hf
      simp at hf
    | cons g rest ih =>
      intro i f hf hdec
      cases i with
      | zero =>
        simp only [List.getElem?_cons_zero] at hf
        injection hf with hf
        subst hf
        rcases processFile_shape p kl gk g with hsk | hrf | ⟨e, hab⟩ |
            ⟨k, hused, hd2, hpfat⟩ | ⟨k, out, hused, hd, _⟩
        · simp [runWalk, hsk]
        · simp [runWalk, hrf]
        · simp [runWalk, hab]
        · rw [hdec k hused] at hd2
          cases hd2
        · rw [hdec k hused] at hd
          cases hd
      | succ j =>
        simp only [List.getElem?_cons_succ] at hf
        cases hpf : processFile p kl gk g with
        | abort e left =>
          simp [runWalk, hpf, List.getElem?_map, hf]
        | skip =>
          simp only [runWalk, hpf, List.getElem?_cons_succ]
          exact ih j f hf hdec
        | recordFail =>
          simp only [runWalk, hpf, List.getElem?_cons_succ]
          exact ih j f hf hdec
        | fatalExit =>
          simp [runWalk, hpf, List.getElem?_map, hf]
        | wrote out =>
          simp only [runWalk, hpf, List.getElem?_cons_succ]
          exact ih j f hf hdec
  · intro es
    induction es with
    | nil =>
      intro i f pe hf
      simp at hf
    | cons g rest ih =>
      intro i f pe hf hpe hne
      cases i with
      | zero =>
        simp only [List.getElem?_cons_zero] at hf
        injection hf with hf
        subst hf
        rcases processFile_shape p kl gk g with hsk | hrf | ⟨e, hab⟩ |
            ⟨k, hused, hd2, hpfat⟩ | ⟨k, out, hused, hd, _⟩
        · simp only [runWalk, hsk, List.getElem?_cons_zero] at hpe
          injection hpe with hpe
          rw [← hpe] at hne
          simp at hne
        · simp only [runWalk, hrf, List.getElem?_cons_zero] at hpe
          injection hpe with hpe
          rw [← hpe] at hne
          simp at hne
        · simp only [runWalk, hab, List.getElem?_cons_zero] at hpe
          injection hpe with hpe
          rw [← hpe] at hne
          simp at hne
        · simp only [runWalk, hpfat, List.getElem?_cons_zero] at hpe
          injection hpe with hpe
          rw [← hpe] at hne
          simp at hne
        · exact ⟨k, hused, by rw [hd]; rfl⟩
      | succ j =>
        simp only [List.getElem?_cons_succ] at hf
        cases hpf : processFile p kl gk g with
        | abort e left =>
          simp only [runWalk, hpf, List.getElem?_cons_succ,
            List.getElem?_map, hf, Option.map_some] at hpe
          injection hpe with hpe
          rw [← hpe] at hne
          simp at hne
        | skip =>
          simp only [runWalk, hpf, List.getElem?_cons_succ] at hpe
          exact ih j f pe hf hpe hne
        | recordFail =>
          simp only [runWalk, hpf, List.getElem?_cons_succ] at hpe
          exact ih j f pe hf hpe hne
        | fatalExit =>
          simp only [runWalk, hpf, List.getElem?_cons_succ,
            List.getElem?_map, hf, Option.map_some] at hpe
          injection hpe with hpe
          rw [← hpe] at hne
          simp at hne
        | wrote out =>
          simp only [runWalk, hpf, List.getElem?_cons_succ] at hpe
          exact ih j f pe hf hpe hne

/-- Witness for `decrypt_fail_unchanged`: under explicit key `[1]` the
marker entry does not decrypt and its bytes survive the walk unchanged. -/
theorem decrypt_fail_unchanged_witness :
    (runWalk trivialPrims klErr [1] [entA]).1[0]? = some (["a"], sivMarker) := by
  refine (decrypt_fail_unchanged trivialPrims klErr [1]).1 [entA] 0 entA rfl ?_
  intro k hk
  rw [show usedKey klErr [1] entA = some [1] from rfl] at hk
  injection hk with hk
  subst hk
  decide

/-- Counterexample to C8 as stated: the decryption of the marker file
`entFatal` fails (in its decompression step), yet the walk does not record
it and continue to `entB` with an aggregate result — the process dies
(second component `none`), no error is returned, and the remaining file was
never processed. -/
theorem recursiveDecrypt_fatal_counterexample :
    markerFile entFatal = true ∧
    decrypt fatalPrims entFatal.content [2] = .fatal ∧
    recursiveDecrypt fatalPrims klErr [2] [entFatal, entB] =
      ([(["x"], badBlob), (["b"], [0])], none) := by
  exact ⟨by decide, by decide, rfl⟩

/-- Witness for `recursiveDecrypt_aggregation`: a failing marker file plus a
plain file yield the aggregate failure with both intact; an entry whose open
fails aborts with that I/O error; and an entry hitting the fatal decompress
exit kills the run. -/
theorem recursiveDecrypt_aggregation_witness :
    recursiveDecrypt trivialPrims klErr [] [entA, entB] =
      ([(["a"], sivMarker), (["b"], [0])], some (.error .partialFailure)) ∧
    recursiveDecrypt trivialPrims klErr [] [entC] =
      ([(["c"], [1])], some (.error (.io 7))) ∧
    recursiveDecrypt fatalPrims kl0 [2] [entFatal] =
      ([(["x"], badBlob)], none) := by
  have h1 := (recursiveDecrypt_aggregation trivialPrims klErr []).1 [entA, entB]
    (by decide) (by decide)
  have h2 := (recursiveDecrypt_aggregation trivialPrims klErr []).2.1 [] entC []
    7 [1] (by intro g hg; cases hg) (by intro g hg; cases hg) (by decide)
  have h3 := (recursiveDecrypt_aggregation fatalPrims kl0 [2]).2.2 [] entFatal []
    (by intro g hg; cases hg) (by intro g hg; cases hg) (by decide)
  exact ⟨h1.trans rfl, h2.trans rfl, h3.trans rfl⟩

/-- The premise of the C1 merge claim holds at this concrete invocation: the
initial filesystem, the eight `-merge-file` arguments (output path `"P"`),
the three temporary names, and a child `git merge-file` returning `[77]`. -/
def mergeFs0 : FileMap := [("O", [1]), ("A", [2]), ("B", [3])]

/-- The eight merge arguments of the concrete invocation. -/
def mergeArgs0 : MergeArgs :=
  { base := "O", current := "A", other := "B", markerSize := "7",
    output := "P", label1 := "l1", label2 := "l2", label3 := "l3" }

/-- The child `git merge-file` of the concrete invocation, always producing
the merged bytes `[77]`. -/
def gitMerge0 : Bytes → Bytes → Bytes → String → String → String → String →
    Except Err Bytes := fun _ _ _ _ _ _ _ => .ok [77]

/-- C1 (counterevidence): at the concrete invocation, `mergeFile` succeeds
yet the final filesystem equals the initial one — the merged bytes `[77]`
were written to the temporary smudged copy `"t1"` of `%A` (with mode 0644)
and deleted with it; the output path `"P"` (`%P`, the fifth argument) was
never written. -/
theorem mergeFile_drops_output :
    mergeFile trivialPrims aenv0 kl0 gitMerge0 mergeFs0 mergeArgs0
        "t0" "t1" "t2" =
      .ok [("O", [1]), ("A", [2]), ("B", [3])] ∧
    fmGet [("O", [1]), ("A", [2]), ("B", [3])] "P" = none ∧
    fmGet [("O", [1]), ("A", [2]), ("B", [3])] "t1" = none := by
  exact ⟨rfl, by decide, by decide⟩

end Strongbox
